import Mathlib

/-!
# Verification of the Scooter compiler middle end

A shallow embedding, in Lean 4, of the Scooter compiler's middle end
(`src/shared/pool.rs`, `src/ir/table.rs`, `src/ir/mapper.rs`,
`src/ir/instr.rs`, `src/ir/lower.rs`, `src/resolution/mod.rs`,
`src/sema/typeck.rs`), together with theorems about the behaviour of
those components.

Modelling conventions:

* `usize` indices become `Nat` (`Index`); none of the verified code paths
  depend on overflow behaviour.
* `HashMap` is modelled as an association list where `insert` conses a
  binding to the front and `find` returns the first match; this has the
  same observable get/insert semantics as a hash map.
* Rust methods that take `&mut self` become functions from the state to a
  new state (returning the original return value in a pair if any).
* Rust code that can `panic!`/`unwrap`/`todo!` is modelled with `Option`
  (or a dedicated `panicked` outcome for the type checker), so that a
  panic is an observable, propagated result rather than an axiom.
* Error values carry the structured content of the formatted `reason`
  strings of the source (source spans are dropped: no verified property
  mentions them).
* The AST mirrors `src/ast/mod.rs` restricted to the constructors that the
  resolver, type checker and lowering engine actually consume (tokens,
  spans, and the `Struct`/`Impl` expression and item forms that both
  `process_expr` and `typeck_expr` omit from their matches are not
  modelled; no claim touches them).
-/

set_option autoImplicit false

namespace Scooter

/-- `pub type Index = usize;` from `src/shared/mod.rs`. -/
abbrev Index := Nat

/-! ## `src/ir/table.rs` — the scoped symbol table -/

/-- `SymbolTable` from `src/ir/table.rs`: an optional boxed previous table
plus a map (here an association list) of symbols. -/
inductive SymbolTable (T : Type) where
  | mk (previous : Option (SymbolTable T)) (symbols : List (String × T))

namespace SymbolTable

/-- Field accessor for `previous`. -/
def previous {T : Type} : SymbolTable T → Option (SymbolTable T)
  | .mk p _ => p

/-- Field accessor for `symbols`. -/
def symbols {T : Type} : SymbolTable T → List (String × T)
  | .mk _ s => s

/-- `SymbolTable::new`. -/
def new {T : Type} : SymbolTable T := .mk none []

/-- `SymbolTable::with_previous`. -/
def with_previous {T : Type} (self prev : SymbolTable T) : SymbolTable T :=
  .mk (some prev) self.symbols

/-- Lookup in the association list modelling the `HashMap` of one scope. -/
def lookupList {T : Type} : List (String × T) → String → Option T
  | [], _ => none
  | (k, v) :: rest, key => if k = key then some v else lookupList rest key

/-- `SymbolTable::find`: search this scope's map, then the previous chain. -/
def find {T : Type} : SymbolTable T → String → Option T
  | .mk none syms, key => lookupList syms key
  | .mk (some prev) syms, key =>
    match lookupList syms key with
    | some v => some v
    | none => find prev key

/-- `SymbolTable::insert`: bind `symbol` in the current scope's map
(shadowing any older binding of the same key). -/
def insert {T : Type} (self : SymbolTable T) (symbol : String) (value : T) :
    SymbolTable T :=
  .mk self.previous ((symbol, value) :: self.symbols)

end SymbolTable

/-! ## `src/ir/mapper.rs` — the index mapper -/

/-- `Mapper` from `src/ir/mapper.rs`: a symbol table of indices plus the
next free index. -/
structure Mapper where
  table : SymbolTable Index
  next : Index

namespace Mapper

/-- `Mapper::new`. -/
def new : Mapper := ⟨SymbolTable.new, 0⟩

/-- `Mapper::insert`: hand out `next`, bind the name to it, bump `next`. -/
def insert (m : Mapper) (value : String) : Index × Mapper :=
  (m.next, ⟨m.table.insert value m.next, m.next + 1⟩)

/-- `Mapper::find`. The source `unwrap`s the lookup; the `none` case is the
source's panic, surfaced to callers as a failure. -/
def find (m : Mapper) (value : String) : Option Index :=
  m.table.find value

/-- `Mapper::up`: push a new scope whose previous scope is the current one. -/
def up (m : Mapper) : Mapper :=
  ⟨SymbolTable.new.with_previous m.table, m.next⟩

/-- `Mapper::down`: pop the current scope. The source `unwrap`s
`previous`; the `none` case is the source's panic. -/
def down (m : Mapper) : Option Mapper :=
  m.table.previous.map (fun prev => ⟨prev, m.next⟩)

end Mapper

/-! ## `src/shared/pool.rs` — the literal pool -/

/-- `Pool<T>` from `src/shared/pool.rs`: the list of values and the
value-to-index lookup map. -/
structure Pool (T : Type) where
  values : List T
  lookup : List (T × Index)

/-- Lookup in the association list modelling the pool's `HashMap`. -/
def lookupIdx {T : Type} [DecidableEq T] : List (T × Index) → T → Option Index
  | [], _ => none
  | (k, i) :: rest, v => if k = v then some i else lookupIdx rest v

namespace Pool

/-- `Pool::new`. -/
def new {T : Type} : Pool T := ⟨[], []⟩

/-- `Pool::insert`: return the existing index if the value is present,
otherwise append the value and record its new index. -/
def insert {T : Type} [DecidableEq T] (p : Pool T) (value : T) :
    Index × Pool T :=
  match lookupIdx p.lookup value with
  | some index => (index, p)
  | none =>
    let index := p.values.length
    (index, ⟨p.values ++ [value], (value, index) :: p.lookup⟩)

/-- `Pool::index_of`. -/
def index_of {T : Type} [DecidableEq T] (p : Pool T) (value : T) :
    Option Index :=
  lookupIdx p.lookup value

/-- `Pool::value_of`. -/
def value_of {T : Type} (p : Pool T) (index : Index) : Option T :=
  p.values.get? index

/-- A pool reached by performing the inserts in `l`, in order, starting
from `Pool::new`. Every pool the compiler builds has this shape. -/
def ofList {T : Type} [DecidableEq T] (l : List T) : Pool T :=
  l.foldl (fun p v => (p.insert v).2) new

end Pool

/-! ## `src/ir/instr.rs` — the instruction and address vocabulary -/

/-- `Label` from `src/ir/instr.rs` (a newtype around `Index`). -/
structure Label where
  index : Index
deriving DecidableEq

/-- `Addr` from `src/ir/instr.rs`. -/
inductive Addr where
  | name (i : Index)
  | const (i : Index)
  | temp (i : Index)
deriving DecidableEq

/-- `Op` from `src/ir/instr.rs`. -/
inductive Op where
  | plus
  | mult
deriving DecidableEq

/-- `BinInstr` from `src/ir/instr.rs`. -/
structure BinInstr where
  label : Option Label
  da : Addr
  la : Addr
  op : Op
  ra : Addr
deriving DecidableEq

/-- `BinInstr::new`. -/
def BinInstr.new (da la : Addr) (op : Op) (ra : Addr) : BinInstr :=
  { label := none, da := da, la := la, op := op, ra := ra }

/-- `UnInstr` from `src/ir/instr.rs` (dead code in the source: no
constructor and never emitted, but part of the instruction vocabulary). -/
structure UnInstr where
  label : Option Label
  da : Addr
  op : Op
  ad : Addr
deriving DecidableEq

/-- `CopyInstr` from `src/ir/instr.rs`. -/
structure CopyInstr where
  label : Option Label
  da : Addr
  ad : Addr
deriving DecidableEq

/-- `CopyInstr::new`. -/
def CopyInstr.new (da ad : Addr) : CopyInstr :=
  { label := none, da := da, ad := ad }

/-- `ParamInstr` from `src/ir/instr.rs`. -/
structure ParamInstr where
  label : Option Label
  ad : Addr
deriving DecidableEq

/-- `CallInstr` from `src/ir/instr.rs`. -/
structure CallInstr where
  label : Option Label
  da : Addr
  fl : Label
  n : Nat
deriving DecidableEq

/-- `CallInstr::new`. -/
def CallInstr.new (da : Addr) (fl : Label) (n : Nat) : CallInstr :=
  { label := none, da := da, fl := fl, n := n }

/-- `RetInstr` from `src/ir/instr.rs`. -/
structure RetInstr where
  label : Option Label
  ad : Addr
deriving DecidableEq

/-- `RetInstr::new`. -/
def RetInstr.new (ad : Addr) : RetInstr :=
  { label := none, ad := ad }

/-- `Instr` from `src/ir/instr.rs`. -/
inductive Instr where
  | binary (i : BinInstr)
  | unary (i : UnInstr)
  | copy (i : CopyInstr)
  | param (i : ParamInstr)
  | call (i : CallInstr)
  | ret (i : RetInstr)
deriving DecidableEq

namespace Instr

/-- `Instr::da`. The source panics on `Param`/`Return`; those cases are
`none` here. -/
def da : Instr → Option Addr
  | .binary bin => some bin.da
  | .unary un => some un.da
  | .copy cop => some cop.da
  | .call c => some c.da
  | .param _ => none
  | .ret _ => none

/-- `Instr::set_label`. -/
def set_label (label : Label) : Instr → Instr
  | .binary bin => .binary { bin with label := some label }
  | .unary un => .unary { un with label := some label }
  | .copy cop => .copy { cop with label := some label }
  | .call c => .call { c with label := some label }
  | .param p => .param { p with label := some label }
  | .ret r => .ret { r with label := some label }

/-- All address fields of an instruction (destination and operands),
used to state freshness of temporaries. -/
def addrs : Instr → List Addr
  | .binary bin => [bin.da, bin.la, bin.ra]
  | .unary un => [un.da, un.ad]
  | .copy cop => [cop.da, cop.ad]
  | .call c => [c.da]
  | .param p => [p.ad]
  | .ret r => [r.ad]

end Instr

/-- The temporary index of an address, when it is a `Temp`. -/
def Addr.tempIdx : Addr → Option Index
  | .temp i => some i
  | _ => none

/-- `t` occurs as a temporary index somewhere in the instruction. -/
def Instr.usesTemp (instr : Instr) (t : Index) : Prop :=
  t ∈ instr.addrs.filterMap Addr.tempIdx

instance (instr : Instr) (t : Index) : Decidable (instr.usesTemp t) := by
  unfold Instr.usesTemp; infer_instance

/-! ## `src/ast/mod.rs` — the abstract syntax tree

Tokens and spans carry no semantic content and are dropped; `Ident` and
`Ty` nodes are represented by their `repr` strings. Argument lists are a
mutually inductive list so that all recursion stays structural. -/

/-- `OpKind` from `src/ast/mod.rs`. -/
inductive OpKind where
  | add
  | multiply
deriving DecidableEq

mutual
/-- `Expr` from `src/ast/mod.rs` (the four variants consumed by
`process_expr` and `typeck_expr`). -/
inductive Expr where
  | binary (lhs : Expr) (op : OpKind) (rhs : Expr)
  | call (ident : String) (args : ArgList)
  | ident (repr : String)
  | num (value : Int)

/-- `ArgList` from `src/ast/mod.rs` (the `Vec<Expr>` of a call). -/
inductive ArgList where
  | nil
  | cons (head : Expr) (tail : ArgList)
end

/-- `ArgList::len`. -/
def ArgList.length : ArgList → Nat
  | .nil => 0
  | .cons _ t => t.length + 1

/-- `Stmt` from `src/ast/mod.rs`. A `Local` is its identifier, declared
type name and initialiser expression. -/
inductive Stmt where
  | locl (ident : String) (ty : String) (expr : Expr)
  | expr (e : Expr)
  | ret (expr : Expr)

/-- `ItemFn` from `src/ast/mod.rs`: the function name, the declared
return-type name, and the block's statements. -/
structure ItemFn where
  ident : String
  ty : String
  body : List Stmt

/-- `FieldNamed` from `src/ast/mod.rs`. -/
structure FieldNamed where
  ident : String
  ty : String

/-- `ItemStruct` from `src/ast/mod.rs`. -/
structure ItemStruct where
  ident : String
  fields : List FieldNamed

/-- `Item` from `src/ast/mod.rs` (the `Impl` variant is not modelled: the
resolver and type checker ignore it and no claim mentions it). -/
inductive Item where
  | fn (f : ItemFn)
  | strukt (s : ItemStruct)

/-- `File` from `src/ast/mod.rs`. -/
structure File where
  items : List Item

/-! ## `src/ir/lower.rs` — the lowering engine -/

/-- `LoweringPool` from `src/ir/lower.rs`. -/
structure LoweringPool where
  integers : Pool Int
  booleans : Pool Bool
  strings : Pool String

/-- `LoweringPool::new`. -/
def LoweringPool.new : LoweringPool :=
  ⟨Pool.new, Pool.new, Pool.new⟩

/-- The mutable state of `LoweringEngine` from `src/ir/lower.rs` (the
borrowed `ast` field becomes an argument of `lower`). -/
structure LoweringEngine where
  instrs : List Instr
  name_map : Mapper
  fn_map : Mapper
  pool : LoweringPool
  next_temp : Index

namespace LoweringEngine

/-- `LoweringEngine::new` (without the `ast` field). -/
def new : LoweringEngine :=
  ⟨[], Mapper.new, Mapper.new, LoweringPool.new, 0⟩

/-- `LoweringEngine::temp`. -/
def temp (s : LoweringEngine) : Index × LoweringEngine :=
  (s.next_temp, { s with next_temp := s.next_temp + 1 })

/-- The `OpKind` to `Op` translation inside `process_expr`. -/
def binOp : OpKind → Op
  | .add => Op.plus
  | .multiply => Op.mult

mutual
/-- `LoweringEngine::process_expr`: emit instructions for an expression
and return the index of the instruction holding its value. `none` is the
source's panic (an `unwrap`ed `Mapper::find` or an out-of-range index). -/
def process_expr (s : LoweringEngine) : Expr → Option (Index × LoweringEngine)
  | .binary lhs opk rhs => do
    let (li, s1) ← process_expr s lhs
    let (ri, s2) ← process_expr s1 rhs
    let (t, s3) := s2.temp
    let da := Addr.temp t
    let op := binOp opk
    let la ← (s3.instrs.get? li).bind Instr.da
    let ra ← (s3.instrs.get? ri).bind Instr.da
    some (s3.instrs.length,
      { s3 with instrs := s3.instrs ++ [Instr.binary (BinInstr.new da la op ra)] })
  | .call ident args => do
    let s1 ← process_args s args
    let (t, s2) := s1.temp
    let da := Addr.temp t
    let fl ← s2.fn_map.find ident
    some (s2.instrs.length,
      { s2 with instrs := s2.instrs ++ [Instr.call (CallInstr.new da ⟨fl⟩ args.length)] })
  | .ident r => do
    let index ← s.name_map.find r
    let (t, s1) := s.temp
    let da := Addr.temp t
    let ad := Addr.name index
    some (s1.instrs.length,
      { s1 with instrs := s1.instrs ++ [Instr.copy (CopyInstr.new da ad)] })
  | .num value =>
    let (index, ints) := s.pool.integers.insert value
    let s0 := { s with pool := { s.pool with integers := ints } }
    let (t, s1) := s0.temp
    let da := Addr.temp t
    let ad := Addr.const index
    some (s1.instrs.length,
      { s1 with instrs := s1.instrs ++ [Instr.copy { label := none, da := da, ad := ad }] })

/-- `LoweringEngine::process_args`: emit a `Param` instruction for every
argument, in order. -/
def process_args (s : LoweringEngine) : ArgList → Option LoweringEngine
  | .nil => some s
  | .cons a rest => do
    let (i, s1) ← process_expr s a
    let ad ← (s1.instrs.get? i).bind Instr.da
    let s2 := { s1 with instrs := s1.instrs ++ [Instr.param { label := none, ad := ad }] }
    process_args s2 rest
end

/-- `<LoweringEngine as Visit>::visit_stmt`. -/
def visit_stmt (s : LoweringEngine) : Stmt → Option LoweringEngine
  | .locl ident _ty expr => do
    let (i, s1) ← process_expr s expr
    let ad ← (s1.instrs.get? i).bind Instr.da
    let (idx, nm) := s1.name_map.insert ident
    let da := Addr.name idx
    some { s1 with
      name_map := nm,
      instrs := s1.instrs ++ [Instr.copy (CopyInstr.new da ad)] }
  | .expr e => do
    let (i, s1) ← process_expr s e
    let ad ← (s1.instrs.get? i).bind Instr.da
    let (t, s2) := s1.temp
    let da := Addr.temp t
    some { s2 with instrs := s2.instrs ++ [Instr.copy (CopyInstr.new da ad)] }
  | .ret r => do
    let (i, s1) ← process_expr s r
    let ad ← (s1.instrs.get? i).bind Instr.da
    some { s1 with instrs := s1.instrs ++ [Instr.ret (RetInstr.new ad)] }

/-- The default visitor walk over a block (`visit_block` in
`src/ast/visitor.rs`): visit each statement in order. -/
def visit_block (s : LoweringEngine) : List Stmt → Option LoweringEngine
  | [] => some s
  | st :: rest => do
    let s1 ← s.visit_stmt st
    s1.visit_block rest

/-- `<LoweringEngine as Visit>::visit_item_fn`. The two `none` sources are
the source's panics: `instrs.get_mut(index).unwrap()` when the body
emitted no instruction, and `Mapper::down`'s `unwrap`. -/
def visit_item_fn (s : LoweringEngine) (f : ItemFn) : Option LoweringEngine := do
  let s0 := { s with name_map := s.name_map.up }
  let (label, fm) := s0.fn_map.insert f.ident
  let s1 := { s0 with fn_map := fm }
  let index := s1.instrs.length
  let s2 ← s1.visit_block f.body
  let instr ← s2.instrs.get? index
  let s3 := { s2 with instrs := s2.instrs.set index (instr.set_label ⟨label⟩) }
  let nm ← s3.name_map.down
  some { s3 with name_map := nm }

/-- The default `visit_item` dispatch: struct items reach only
`visit_ident`/`visit_ty` defaults, which do nothing. -/
def visit_item (s : LoweringEngine) : Item → Option LoweringEngine
  | .fn f => s.visit_item_fn f
  | .strukt _ => some s

/-- The default `visit_file` walk: visit each item in order. -/
def visit_file (s : LoweringEngine) : List Item → Option LoweringEngine
  | [] => some s
  | it :: rest => do
    let s1 ← s.visit_item it
    s1.visit_file rest

end LoweringEngine

/-- `IRRoot` from `src/ir/mod.rs`. -/
structure IRRoot where
  last_label : Index
  interner : LoweringPool
  instrs : List Instr

/-- `LoweringEngine::lower`, applied to a file with a fresh engine. -/
def LoweringEngine.lower (f : File) : Option IRRoot := do
  let s ← LoweringEngine.new.visit_file f.items
  some ⟨s.fn_map.next - 1, s.pool, s.instrs⟩

/-! ## `src/resolution/mod.rs` — the resolver -/

/-- `Type` from `src/resolution/mod.rs` (named `Ty` because `Type` is a
Lean keyword): a primitive name or a struct with its path and
field-name to type-name map. -/
inductive Ty where
  | primitive (repr : String)
  | strukt (path : String) (fields : List (String × String))
deriving DecidableEq

/-- The canonical name of a type: the string both `PartialEq` and
`Display` for `Type` extract. -/
def Ty.name : Ty → String
  | .primitive repr => repr
  | .strukt path _ => path

/-- `impl PartialEq for Type`: equality is by canonical name. -/
def tyEq (a b : Ty) : Bool :=
  a.name == b.name

/-- `Function` from `src/resolution/mod.rs`. -/
structure Function where
  return_type : Ty
deriving DecidableEq

/-- `Local` from `src/resolution/mod.rs`. -/
structure Local where
  ty : Ty
deriving DecidableEq

/-- `Symbol` from `src/resolution/mod.rs`. -/
inductive Symbol where
  | function (f : Function)
  | locl (l : Local)
  | type (t : Ty)
deriving DecidableEq

/-- The resolver's symbol table type. -/
abbrev Table := SymbolTable Symbol

namespace Resolver

/-- The table built by `Resolver::new`: primitives `"()"` and `"i32"`
pre-registered. -/
def initTable : Table :=
  (SymbolTable.new.insert "()" (.type (.primitive "()"))).insert
    "i32" (.type (.primitive "i32"))

/-- `Resolver::resolve_ty`. -/
def resolve_ty (table : Table) (ident : String) : Option Ty :=
  (table.find ident).bind fun s =>
    match s with
    | .type t => some t
    | _ => none

/-- `Resolver::resolve_local`. -/
def resolve_local (table : Table) (ident : String) : Option Ty :=
  (table.find ident).bind fun s =>
    match s with
    | .locl l => some l.ty
    | _ => none

/-- `Resolver::resolve_fn`. -/
def resolve_fn (table : Table) (ident : String) : Option Function :=
  (table.find ident).bind fun s =>
    match s with
    | .function f => some f
    | _ => none

/-- `item_struct_fields` from `src/resolution/mod.rs`. -/
def item_struct_fields (s : ItemStruct) : List (String × String) :=
  s.fields.map (fun f => (f.ident, f.ty))

/-- `<Resolver as Visit>::visit_item_fn` in `CollectMode::Functions`:
resolve the declared return-type name, defaulting to `"()"`, and register
a `Symbol::Function`. The pass has no error channel: it is total. -/
def visit_item_fn (table : Table) (f : ItemFn) : Table :=
  table.insert f.ident
    (.function ⟨(resolve_ty table f.ty).getD (.primitive "()")⟩)

/-- `<Resolver as Visit>::visit_item_struct` in `CollectMode::Types`. -/
def visit_item_struct (table : Table) (s : ItemStruct) : Table :=
  table.insert s.ident (.type (.strukt s.ident (item_struct_fields s)))

/-- `Resolver::collect_tys`: the type pass (function items are skipped by
the mode check). -/
def collect_tys (table : Table) : List Item → Table
  | [] => table
  | .fn _ :: rest => collect_tys table rest
  | .strukt s :: rest => collect_tys (visit_item_struct table s) rest

/-- `Resolver::collect_functions`: the function pass (struct items are
skipped by the mode check). -/
def collect_functions (table : Table) : List Item → Table
  | [] => table
  | .fn f :: rest => collect_functions (visit_item_fn table f) rest
  | .strukt _ :: rest => collect_functions table rest

/-- The resolver pipeline of `main.rs`: `collect_tys` then
`collect_functions` over the same file. -/
def collect (f : File) : Table :=
  collect_functions (collect_tys initTable f.items) f.items

end Resolver

/-! ## `src/sema/typeck.rs` — the type checker -/

/-- The structured content of the `TypeCkError` reason strings produced in
`src/sema/typeck.rs` (one constructor per `format!` site; spans are
dropped). -/
inductive TypeCkError where
  | unknownType (name : String)
  | returnTypeMismatch (expected actual : Ty)
  | localTypeMismatch (ident : String) (expected actual : Ty)
  | undefinedName (ident : String)
  | undefinedFunction (ident : String)
  | binaryTypeMismatch (lhs rhs : Ty)
deriving DecidableEq

/-- The outcome of a type-checker unit that may mutate the resolver's
table: a value, a `TypeCkError`, or an aborting `todo!()` panic. `ok` and
`err` carry the table state after the unit ran (an erroring unit leaves
the table as it found it). -/
inductive Tck (α : Type) where
  | ok (a : α) (table : Table)
  | err (e : TypeCkError) (table : Table)
  | panicked

/-- The table carried by a non-panicking outcome. -/
def Tck.table? {α : Type} : Tck α → Option Table
  | .ok _ t => some t
  | .err _ t => some t
  | .panicked => none

namespace TypeCk

/-- `TypeCk::typeck_expr` (with `typeck_expr_bin`, `typeck_expr_call`,
`typeck_ident` and `typeck_expr_lit` inlined at their single call sites).
Expressions never mutate the table. -/
def typeck_expr (table : Table) : Expr → Except TypeCkError Ty
  | .binary lhs _op rhs => do
    let l ← typeck_expr table lhs
    let r ← typeck_expr table rhs
    if tyEq l r then pure l
    else throw (.binaryTypeMismatch l r)
  | .call ident _args =>
    match Resolver.resolve_fn table ident with
    | some sig => pure sig.return_type
    | none => throw (.undefinedFunction ident)
  | .ident repr =>
    match Resolver.resolve_local table repr with
    | some ty => pure ty
    | none => throw (.undefinedName repr)
  | .num _ => pure (.primitive "i32")

/-- `TypeCk::typeck_stmt`. The catch-all `_ => todo!()` of the source (hit
by every bare expression statement) is the `panicked` outcome. -/
def typeck_stmt (table : Table) : Stmt → Tck Ty
  | .locl ident tyName expr =>
    match typeck_expr table expr with
    | .error e => .err e table
    | .ok actual =>
      match Resolver.resolve_ty table tyName with
      | some expected =>
        if tyEq expected actual then
          .ok actual (table.insert ident (.locl ⟨actual⟩))
        else
          .err (.localTypeMismatch ident expected actual) table
      | none => .err (.unknownType tyName) table
  | .ret r =>
    match typeck_expr table r with
    | .ok ty => .ok ty table
    | .error e => .err e table
  | .expr _ => .panicked

/-- `TypeCk::typeck_block`. The source discards the result of
`typeck_stmt` for every statement, then re-runs it on the last statement
and takes that result as the block's; an empty block has type `"()"`. -/
def typeck_block (table : Table) : List Stmt → Tck Ty
  | [] => .ok (.primitive "()") table
  | s :: rest =>
    match typeck_stmt table s with
    | .panicked => .panicked
    | .ok _ t' =>
      match rest with
      | [] => typeck_stmt t' s
      | _ :: _ => typeck_block t' rest
    | .err _ t' =>
      match rest with
      | [] => typeck_stmt t' s
      | _ :: _ => typeck_block t' rest

/-- `<TypeCk as Visit>::visit_item_fn`, as the outcome it contributes:
resolve the declared return type, check the body, and compare the body's
type against the declared one by name equality. `ok` means `self.result`
is left untouched. -/
def check_item_fn (table : Table) (f : ItemFn) : Tck Unit :=
  match Resolver.resolve_ty table f.ty with
  | some expected =>
    match typeck_block table f.body with
    | .panicked => .panicked
    | .err e t' => .err e t'
    | .ok actual t' =>
      if tyEq expected actual then .ok () t'
      else .err (.returnTypeMismatch expected actual) t'
  | none => .err (.unknownType f.ty) table

/-- The final state of `TypeCk::run`: either an aborting panic, or the
`self.result` field together with the resolver table. -/
inductive RunOut where
  | panicked
  | done (result : Except TypeCkError Unit) (table : Table)

/-- The result carried by a non-panicking run. -/
def RunOut.result? : RunOut → Option (Except TypeCkError Unit)
  | .panicked => none
  | .done r _ => some r

/-- The `visit_file` walk of `TypeCk`: visit each item, and on each
erroneous function overwrite `self.result` with that function's error
(struct items reach only do-nothing default visits). -/
def run_items (result : Except TypeCkError Unit) (table : Table) :
    List Item → RunOut
  | [] => .done result table
  | .fn f :: rest =>
    match check_item_fn table f with
    | .panicked => .panicked
    | .err e t' => run_items (.error e) t' rest
    | .ok _ t' => run_items result t' rest
  | .strukt _ :: rest => run_items result table rest

/-- `TypeCk::run`: visit the file starting from `result = Ok(())`. -/
def run (table : Table) (f : File) : RunOut :=
  run_items (.ok ()) table f.items

end TypeCk

/-- The semantic pipeline of `main.rs`: collect types and functions with
the resolver, then run the type checker over the same file with the
collected table. -/
def checkProgram (f : File) : TypeCk.RunOut :=
  TypeCk.run (Resolver.collect f) f

/-! ## Auxiliary definitions for the stated properties -/

/-- The operations a traversal may perform on one `Mapper` instance. -/
inductive MapperOp where
  | insert (name : String)
  | up
  | down

/-- Run a sequence of mapper operations, collecting the indices returned
by the `insert` calls in order. A `down` on the root scope is the
source's `unwrap` panic: the run stops and its final state is `none`. -/
def runOps : Mapper → List MapperOp → Option Mapper × List Index
  | m, [] => (some m, [])
  | m, .insert n :: rest =>
    let (i, m') := m.insert n
    let (mf, is) := runOps m' rest
    (mf, i :: is)
  | m, .up :: rest => runOps m.up rest
  | m, .down :: rest =>
    match m.down with
    | none => (none, [])
    | some m' => runOps m' rest

/-- Every temporary index appearing in the emitted instructions is below
the engine's `next_temp` counter (so `next_temp` is fresh). Holds for
`LoweringEngine.new` and is preserved by lowering. -/
def TempsBound (s : LoweringEngine) : Prop :=
  ∀ instr ∈ s.instrs, ∀ t, instr.usesTemp t → t < s.next_temp

/-- The per-function errors of a type-checker run, in traversal order
(`none` when some function's check panics). `TypeCk.run` overwrites
`self.result` with each of these in turn. -/
def TypeCk.errList (table : Table) : List Item → Option (List TypeCkError)
  | [] => some []
  | .fn f :: rest =>
    match TypeCk.check_item_fn table f with
    | .panicked => none
    | .err e t' => (TypeCk.errList t' rest).map (e :: ·)
    | .ok _ t' => TypeCk.errList t' rest
  | .strukt _ :: rest => TypeCk.errList table rest

/-- The pool's `lookup` map and `values` vector agree: `lookup` maps `v`
to `i` exactly when `values[i] = v`. Holds for every pool built by
inserts from `Pool::new`. -/
def Pool.WF {T : Type} [DecidableEq T] (p : Pool T) : Prop :=
  ∀ v i, lookupIdx p.lookup v = some i ↔ p.values.get? i = some v

/-- Example program with two functions whose bodies each call an
undeclared function (`p` in the first, `q` in the second). -/
def fileTwoErrors : File :=
  ⟨[.fn ⟨"a", "i32", [.ret (.call "p" .nil)]⟩,
    .fn ⟨"b", "i32", [.ret (.call "q" .nil)]⟩]⟩

/-- Example program whose function body consists of one bare expression
statement. -/
def fileBareExprStmt : File :=
  ⟨[.fn ⟨"main", "i32", [.expr (.binary (.num 1) .add (.num 2))]⟩]⟩

/-- Example program where `x` is declared as a local only inside `f`, and
a later function `g` uses `x`. -/
def fileLeakedLocal : File :=
  ⟨[.fn ⟨"f", "i32", [.locl "x" "i32" (.num 1), .ret (.ident "x")]⟩,
    .fn ⟨"g", "i32", [.ret (.ident "x")]⟩]⟩

/-! ## Helper lemmas -/

/-- Inserting a binding makes it the one `find` returns. -/
theorem SymbolTable.find_insert {T : Type} (t : SymbolTable T) (k : String)
    (v : T) : (t.insert k v).find k = some v := by
  cases t with
  | mk prev syms =>
    cases prev <;> simp [SymbolTable.insert, SymbolTable.previous,
      SymbolTable.find, SymbolTable.lookupList]

/-- `Mapper::down` preserves the `next` counter. -/
theorem Mapper.down_next {m m' : Mapper} (h : m.down = some m') :
    m'.next = m.next := by
  unfold Mapper.down at h
  cases hp : m.table.previous with
  | none => rw [hp] at h; simp [Option.map] at h
  | some prev => rw [hp] at h; simp [Option.map] at h; rw [← h]

/-- The indices issued by a run of mapper operations are exactly the
consecutive indices starting at the initial `next` counter. -/
theorem runOps_issued (ops : List MapperOp) (m : Mapper) :
    (runOps m ops).2 = List.range' m.next (runOps m ops).2.length := by
  induction ops generalizing m with
  | nil => rfl
  | cons op rest ih =>
    cases op with
    | insert n =>
      simp only [runOps, Mapper.insert]
      rw [List.length_cons, List.range'_succ]
      exact congrArg (List.cons m.next) (ih ⟨m.table.insert n m.next, m.next + 1⟩)
    | up =>
      show (runOps m.up rest).2 = _
      have := ih m.up
      simpa [Mapper.up] using this
    | down =>
      show (runOps m ( .down :: rest)).2 = _
      unfold runOps
      cases hd : m.down with
      | none => rfl
      | some m' =>
        have hnext := Mapper.down_next hd
        simpa [hnext] using ih m'

/-! ## C1 — destination-as-constant instruction construction -/

/-- **C1, counterexample.** The claim says constructing an instruction
with a `Const(_)` destination fails with a structured `InvalidDestination`
error. In the source, `BinInstr::new`, `CopyInstr::new` and
`CallInstr::new` are infallible: at the concrete destination `Const(0)`
each constructor succeeds and stores the constant destination verbatim;
no error value exists anywhere (`InvalidDestination` appears nowhere in
the crate). -/
theorem BinInstr_new_accepts_const_destination :
    BinInstr.new (Addr.const 0) (Addr.const 1) Op.plus (Addr.const 2)
      = { label := none, da := Addr.const 0, la := Addr.const 1,
          op := Op.plus, ra := Addr.const 2 }
    ∧ CopyInstr.new (Addr.const 0) (Addr.name 1)
      = { label := none, da := Addr.const 0, ad := Addr.name 1 }
    ∧ CallInstr.new (Addr.const 0) ⟨3⟩ 2
      = { label := none, da := Addr.const 0, fl := ⟨3⟩, n := 2 } :=
  ⟨rfl, rfl, rfl⟩

/-- **C1, amended.** Constructing a `Binary`, `Copy` or `Call` instruction
never fails and performs no destination validation: each `new` returns
the record with the given fields (and no label), for every destination
address including `Const(_)`. The no-constant-destination rule is only a
documented invariant; it surfaces as a panic in IR rendering
(`addr_readable`), not as a structured error at construction. -/
theorem instruction_construction_total :
    (∀ da la op ra, BinInstr.new da la op ra
      = { label := none, da := da, la := la, op := op, ra := ra })
    ∧ (∀ da ad, CopyInstr.new da ad = { label := none, da := da, ad := ad })
    ∧ (∀ da fl n, CallInstr.new da fl n
      = { label := none, da := da, fl := fl, n := n }) :=
  ⟨fun _ _ _ _ => rfl, fun _ _ => rfl, fun _ _ _ => rfl⟩

/-! ## C3 — bare expression statements panic the type checker -/

/-- **C3.** For the program `fn main() -> i32 { 1 + 2; }`, whose body is a
single bare expression statement, the type checker's traversal hits the
`_ => todo!()` arm of `typeck_stmt` (the run panics), while the lowering
engine lowers the same program successfully: `typeck_stmt` is not total
over the statement type the lowering engine accepts. -/
theorem typeck_panics_on_bare_expr_stmt :
    checkProgram fileBareExprStmt = .panicked
    ∧ (LoweringEngine.lower fileBareExprStmt).isSome = true :=
  ⟨rfl, rfl⟩

/-! ## C7 — unresolvable return types default to unit -/

/-- **C7.** The resolver's function pass is total (it returns a table, not
a result — there is no error channel): a function whose declared
return-type name does not resolve against the current table is registered
with return type `"()"`, and one whose name resolves to a type `t` is
registered with return type `t`. -/
theorem resolver_defaults_unresolved_return_type (table : Table)
    (f : ItemFn) :
    (Resolver.resolve_ty table f.ty = none →
      (Resolver.visit_item_fn table f).find f.ident
        = some (.function ⟨.primitive "()"⟩))
    ∧ (∀ t, Resolver.resolve_ty table f.ty = some t →
      (Resolver.visit_item_fn table f).find f.ident
        = some (.function ⟨t⟩)) := by
  constructor
  · intro h
    unfold Resolver.visit_item_fn
    rw [h, SymbolTable.find_insert]
    rfl
  · intro t h
    unfold Resolver.visit_item_fn
    rw [h, SymbolTable.find_insert]
    rfl

/-- Witness for C7: on the primitives-only table, a function declared
`fn g() -> Foo` (with `Foo` never registered) is registered with return
type `"()"`, and `fn h() -> i32` with return type `i32`. -/
theorem resolver_defaults_unresolved_return_type_witness :
    (Resolver.visit_item_fn Resolver.initTable ⟨"g", "Foo", []⟩).find "g"
      = some (.function ⟨.primitive "()"⟩)
    ∧ (Resolver.visit_item_fn Resolver.initTable ⟨"h", "i32", []⟩).find "h"
      = some (.function ⟨.primitive "i32"⟩) :=
  ⟨(resolver_defaults_unresolved_return_type Resolver.initTable
      ⟨"g", "Foo", []⟩).1 rfl,
   (resolver_defaults_unresolved_return_type Resolver.initTable
      ⟨"h", "i32", []⟩).2 (.primitive "i32") rfl⟩

/-! ## C9 — mapper indices are never reused -/

/-- **C9.** For every sequence of `insert`, `up` (scope push) and `down`
(scope pop) operations run on a fresh `Mapper` instance, the indices
returned by the `insert` calls are pairwise distinct: a fresh index is
issued even when the name exists in an enclosing scope, and no index is
reused after a scope pop. -/
theorem mapper_indices_never_reused (ops : List MapperOp) :
    ((runOps Mapper.new ops).2).Nodup := by
  rw [runOps_issued ops Mapper.new]
  exact List.nodup_range' _ _

/-! ## C8 — literal pool interning -/

/-- The empty pool is well-formed. -/
theorem Pool.wf_new {T : Type} [DecidableEq T] : (Pool.new : Pool T).WF := by
  intro v i
  simp [Pool.new, Pool.WF, lookupIdx]

/-- `Pool::insert` preserves well-formedness. -/
theorem Pool.wf_insert {T : Type} [DecidableEq T] {p : Pool T} (hwf : p.WF)
    (v : T) : ((p.insert v).2).WF := by
  unfold Pool.insert
  cases h : lookupIdx p.lookup v with
  | some i => exact hwf
  | none =>
    intro w j
    show lookupIdx ((v, p.values.length) :: p.lookup) w = some j
      ↔ (p.values ++ [v]).get? j = some w
    by_cases hvw : v = w
    · subst hvw
      rw [show lookupIdx ((v, p.values.length) :: p.lookup) v
          = some p.values.length from by simp [lookupIdx]]
      constructor
      · intro hj
        have : p.values.length = j := by injection hj
        subst this
        exact List.get?_concat_length _ _
      · intro hj
        rcases Nat.lt_trichotomy j p.values.length with hlt | heq | hgt
        · rw [List.get?_append hlt] at hj
          have := (hwf v j).mpr hj
          rw [h] at this
          exact Option.noConfusion this
        · rw [heq]
        · have : (p.values ++ [v]).get? j = none := by
            rw [List.get?_eq_none]
            simp
            omega
          rw [this] at hj
          exact Option.noConfusion hj
    · rw [show lookupIdx ((v, p.values.length) :: p.lookup) w
          = lookupIdx p.lookup w from by simp [lookupIdx, hvw]]
      rw [hwf w j]
      constructor
      · intro hj
        have hlt : j < p.values.length := by
          by_contra hn
          rw [List.get?_eq_none.mpr (Nat.le_of_not_lt hn)] at hj
          exact Option.noConfusion hj
        rw [List.get?_append hlt]
        exact hj
      · intro hj
        rcases Nat.lt_trichotomy j p.values.length with hlt | heq | hgt
        · rwa [List.get?_append hlt] at hj
        · subst heq
          rw [List.get?_concat_length] at hj
          exact absurd (Option.some.inj hj) hvw
        · have : (p.values ++ [v]).get? j = none := by
            rw [List.get?_eq_none]
            simp
            omega
          rw [this] at hj
          exact Option.noConfusion hj

/-- A value's recorded index survives a later insert of any value. -/
theorem Pool.lookup_insert_of_lookup {T : Type} [DecidableEq T] (p : Pool T)
    (w v : T) (i : Index) (h : lookupIdx p.lookup v = some i) :
    lookupIdx ((p.insert w).2).lookup v = some i := by
  unfold Pool.insert
  cases hw : lookupIdx p.lookup w with
  | some j => exact h
  | none =>
    have hvw : w ≠ v := by
      rintro rfl
      rw [hw] at h
      exact Option.noConfusion h
    show lookupIdx ((w, p.values.length) :: p.lookup) v = some i
    simpa [lookupIdx, hvw] using h

/-- After inserting `v`, the lookup map sends `v` to the returned index. -/
theorem Pool.lookup_insert_self {T : Type} [DecidableEq T] (p : Pool T)
    (v : T) :
    lookupIdx ((p.insert v).2).lookup v = some ((p.insert v).1) := by
  unfold Pool.insert
  cases h : lookupIdx p.lookup v with
  | some i => exact h
  | none => simp [lookupIdx]

/-- After inserting `v`, `value_of` at the returned index gives back `v`. -/
theorem Pool.value_of_insert {T : Type} [DecidableEq T] {p : Pool T}
    (hwf : p.WF) (v : T) :
    ((p.insert v).2).value_of ((p.insert v).1) = some v := by
  unfold Pool.insert
  cases h : lookupIdx p.lookup v with
  | some i => exact (hwf v i).mp h
  | none => exact List.get?_concat_length _ _

/-- Folding inserts preserves well-formedness. -/
theorem Pool.wf_foldl {T : Type} [DecidableEq T] (l : List T) (p : Pool T)
    (hwf : p.WF) : (l.foldl (fun q v => (q.insert v).2) p).WF := by
  induction l generalizing p with
  | nil => exact hwf
  | cons a rest ih => exact ih _ (Pool.wf_insert hwf a)

/-- Every pool reachable by inserts from `Pool::new` is well-formed. -/
theorem Pool.wf_ofList {T : Type} [DecidableEq T] (l : List T) :
    (Pool.ofList l).WF :=
  Pool.wf_foldl l Pool.new Pool.wf_new

/-- A value's recorded index survives any later sequence of inserts. -/
theorem Pool.lookup_foldl_of_lookup {T : Type} [DecidableEq T] (m : List T)
    (p : Pool T) (v : T) (i : Index) (h : lookupIdx p.lookup v = some i) :
    lookupIdx ((m.foldl (fun q w => (q.insert w).2) p)).lookup v = some i := by
  induction m generalizing p with
  | nil => exact h
  | cons a rest ih => exact ih _ (Pool.lookup_insert_of_lookup p a v i h)

/-- **C8.** Interning in a literal pool, for any insertion history: insert
`v1` into the pool built by the inserts in `l`, let any further inserts
`m` happen, then insert `v2`. The two returned indices are equal iff the
two values are equal; re-inserting the already-present `v1` returns its
existing index and leaves the pool unchanged; and `value_of` at the index
returned for `v1` gives back `v1`. -/
theorem pool_insert_interning {T : Type} [DecidableEq T] (l m : List T)
    (v1 v2 : T) :
    (((Pool.ofList (l ++ v1 :: m)).insert v2).1
        = ((Pool.ofList l).insert v1).1 ↔ v2 = v1)
    ∧ (((Pool.ofList l).insert v1).2.insert v1
        = (((Pool.ofList l).insert v1).1, ((Pool.ofList l).insert v1).2))
    ∧ (((Pool.ofList l).insert v1).2.value_of (((Pool.ofList l).insert v1).1)
        = some v1) := by
  have wfl : (Pool.ofList l).WF := Pool.wf_ofList l
  have hself : lookupIdx (((Pool.ofList l).insert v1).2).lookup v1
      = some (((Pool.ofList l).insert v1).1) :=
    Pool.lookup_insert_self (Pool.ofList l) v1
  have hval : ((Pool.ofList l).insert v1).2.value_of
      (((Pool.ofList l).insert v1).1) = some v1 :=
    Pool.value_of_insert wfl v1
  have hofl : Pool.ofList (l ++ v1 :: m)
      = m.foldl (fun q w => (q.insert w).2) (((Pool.ofList l).insert v1).2) := by
    unfold Pool.ofList
    rw [List.foldl_append]
    rfl
  have hstab : lookupIdx (Pool.ofList (l ++ v1 :: m)).lookup v1
      = some (((Pool.ofList l).insert v1).1) := by
    rw [hofl]
    exact Pool.lookup_foldl_of_lookup m _ v1 _ hself
  have wfbig : (Pool.ofList (l ++ v1 :: m)).WF := Pool.wf_ofList _
  have hvalbig : (Pool.ofList (l ++ v1 :: m)).values.get?
      (((Pool.ofList l).insert v1).1) = some v1 :=
    (wfbig v1 _).mp hstab
  set i1 := ((Pool.ofList l).insert v1).1 with hi1
  set q := ((Pool.ofList l).insert v1).2 with hq
  set big := Pool.ofList (l ++ v1 :: m) with hbig
  refine ⟨⟨?_, ?_⟩, ?_, hval⟩
  · intro heq
    cases h2 : lookupIdx big.lookup v2 with
    | some j =>
      have hj : j = i1 := by
        simpa [Pool.insert, h2] using heq
      have hv2 : big.values.get? j = some v2 := (wfbig v2 j).mp h2
      rw [hj, hvalbig] at hv2
      exact (Option.some.inj hv2).symm
    | none =>
      have hlen : big.values.length = i1 := by
        simpa [Pool.insert, h2] using heq
      have hlt : i1 < big.values.length := by
        by_contra hn
        rw [List.get?_eq_none.mpr (Nat.le_of_not_lt hn)] at hvalbig
        exact Option.noConfusion hvalbig
      rw [hlen] at hlt
      exact absurd hlt (lt_irrefl i1)
  · rintro rfl
    simp [Pool.insert, hstab]
  · simp [Pool.insert, hself]

/-! ## C2 — which type error a run returns -/

/-- The final `self.result` of a non-panicking run is the initial result
overwritten by each function's error in traversal order — i.e. the *last*
error when there is one. -/
theorem run_items_result (items : List Item) :
    ∀ (table : Table) (r : Except TypeCkError Unit) (es : List TypeCkError),
      TypeCk.errList table items = some es →
      (TypeCk.run_items r table items).result?
        = some (es.foldl (fun _ e => Except.error e) r) := by
  induction items with
  | nil =>
    intro table r es h
    simp only [TypeCk.errList, Option.some.injEq] at h
    subst h
    rfl
  | cons it rest ih =>
    intro table r es h
    cases it with
    | fn f =>
      cases hc : TypeCk.check_item_fn table f with
      | panicked =>
        simp only [TypeCk.errList, hc] at h
        exact Option.noConfusion h
      | err e t' =>
        simp only [TypeCk.errList, hc] at h
        cases hes : TypeCk.errList t' rest with
        | none => rw [hes] at h; exact Option.noConfusion h
        | some es' =>
          rw [hes] at h
          have h' : e :: es' = es := by simpa using h
          subst h'
          simp only [TypeCk.run_items, hc]
          rw [ih t' (.error e) es' hes]
          rfl
      | ok a t' =>
        simp only [TypeCk.errList, hc] at h
        simp only [TypeCk.run_items, hc]
        exact ih t' r es h
    | strukt s =>
      simp only [TypeCk.errList] at h
      show (TypeCk.run_items r table rest).result? = _
      exact ih table r es h

/-- **C2, counterexample.** For the two-function program
`fn a() -> i32 { return p(); } fn b() -> i32 { return q(); }` (both `p`
and `q` undeclared), the first erroneous function in traversal order is
`a`, whose check yields `UndefinedFunction "p"` — yet the run returns
`UndefinedFunction "q"`, the *second* function's error: a later error
does replace the earlier one. -/
theorem typeck_returns_second_error :
    (checkProgram fileTwoErrors).result?
      = some (.error (.undefinedFunction "q"))
    ∧ TypeCk.check_item_fn (Resolver.collect fileTwoErrors)
        ⟨"a", "i32", [.ret (.call "p" .nil)]⟩
      = .err (.undefinedFunction "p") (Resolver.collect fileTwoErrors)
    ∧ (TypeCkError.undefinedFunction "q") ≠ (.undefinedFunction "p") :=
  ⟨rfl, rfl, by decide⟩

/-- **C2, amended.** A non-panicking run of the Type Checker returns the
*last* type error of its traversal (each erroneous function's error
overwrites `self.result`, so later errors replace earlier ones), and
succeeds only when no function's check errors. Within a function, only an
error arising from the declared-return-type resolution, the last
statement's check, or the return-type comparison can surface. -/
theorem typeck_returns_last_error (f : File) (table : Table)
    (es : List TypeCkError) (h : TypeCk.errList table f.items = some es) :
    (TypeCk.run table f).result?
      = some (es.foldl (fun _ e => Except.error e) (.ok ())) :=
  run_items_result f.items table (.ok ()) es h

/-- Witness for the amended C2, at the two-error program: the trace of
function errors is `[UndefinedFunction "p", UndefinedFunction "q"]` and
the run returns the last of them. -/
theorem typeck_returns_last_error_witness :
    (TypeCk.run (Resolver.collect fileTwoErrors) fileTwoErrors).result?
      = some (.error (.undefinedFunction "q")) :=
  typeck_returns_last_error fileTwoErrors (Resolver.collect fileTwoErrors)
    [.undefinedFunction "p", .undefinedFunction "q"] rfl

/-! ## C4 — a block's type and the return-type comparison -/

/-- When a block checks successfully, its type (and output table) is the
one computed by `typeck_stmt` for the block's *last* statement (at some
intermediate table): all earlier statements' types are discarded. -/
theorem typeck_block_ok_last (stmts : List Stmt) :
    ∀ (table : Table) (ty : Ty) (t' : Table),
      stmts ≠ [] →
      TypeCk.typeck_block table stmts = .ok ty t' →
      ∃ last t0, stmts.getLast? = some last
        ∧ TypeCk.typeck_stmt t0 last = .ok ty t' := by
  induction stmts with
  | nil => intro table ty t' hne _; exact absurd rfl hne
  | cons s rest ih =>
    intro table ty t' _ h
    cases hs : TypeCk.typeck_stmt table s with
    | panicked =>
      simp only [TypeCk.typeck_block, hs] at h
      exact Tck.noConfusion h
    | ok a t1 =>
      cases rest with
      | nil =>
        simp only [TypeCk.typeck_block, hs] at h
        exact ⟨s, t1, rfl, h⟩
      | cons r rs =>
        simp only [TypeCk.typeck_block, hs] at h
        obtain ⟨last, t0, hl, ht⟩ := ih t1 ty t' (by simp) h
        exact ⟨last, t0, by rw [List.getLast?_cons_cons]; exact hl, ht⟩
    | err e t1 =>
      cases rest with
      | nil =>
        simp only [TypeCk.typeck_block, hs] at h
        exact ⟨s, t1, rfl, h⟩
      | cons r rs =>
        simp only [TypeCk.typeck_block, hs] at h
        obtain ⟨last, t0, hl, ht⟩ := ih t1 ty t' (by simp) h
        exact ⟨last, t0, by rw [List.getLast?_cons_cons]; exact hl, ht⟩

/-- **C4.** The type checker computes a function body's type as the type
of the block's last statement (an empty body has type `"()"` and leaves
the table unchanged), discarding earlier statements' types; and, when the
body's check succeeds with type `actual` and the declared return type
resolves to `expected`, the function's check errs with
`ReturnTypeMismatch` exactly when the two canonical names differ. -/
theorem typeck_block_type_and_return_comparison :
    (∀ table : Table,
      TypeCk.typeck_block table [] = .ok (.primitive "()") table)
    ∧ (∀ (table : Table) (stmts : List Stmt) (ty : Ty) (t' : Table),
        stmts ≠ [] →
        TypeCk.typeck_block table stmts = .ok ty t' →
        ∃ last t0, stmts.getLast? = some last
          ∧ TypeCk.typeck_stmt t0 last = .ok ty t')
    ∧ (∀ (table : Table) (f : ItemFn) (expected actual : Ty) (t' : Table),
        Resolver.resolve_ty table f.ty = some expected →
        TypeCk.typeck_block table f.body = .ok actual t' →
        ((expected.name = actual.name →
            TypeCk.check_item_fn table f = .ok () t')
          ∧ (expected.name ≠ actual.name →
            TypeCk.check_item_fn table f
              = .err (.returnTypeMismatch expected actual) t'))) := by
  refine ⟨fun _ => rfl, fun table stmts => typeck_block_ok_last stmts table, ?_⟩
  intro table f expected actual t' hres hblock
  constructor
  · intro hname
    have ht : tyEq expected actual = true := by
      unfold tyEq
      exact beq_iff_eq.mpr hname
    simp only [TypeCk.check_item_fn, hres, hblock, ht]
    rfl
  · intro hname
    have ht : tyEq expected actual = false := by
      unfold tyEq
      exact beq_eq_false_iff_ne.mpr hname
    simp only [TypeCk.check_item_fn, hres, hblock, ht]
    rfl

/-- Witness for C4: the empty block has type `"()"`; the block
`{ return 1; }` gets its type `i32` from its last (only) statement;
`fn f() -> i32 { return 1; }` checks cleanly; and
`fn g() -> () { return 1; }` fails with `ReturnTypeMismatch`. -/
theorem typeck_block_type_and_return_comparison_witness :
    TypeCk.typeck_block Resolver.initTable []
      = .ok (.primitive "()") Resolver.initTable
    ∧ (∃ last t0, [Stmt.ret (.num 1)].getLast? = some last
        ∧ TypeCk.typeck_stmt t0 last
          = .ok (.primitive "i32") Resolver.initTable)
    ∧ TypeCk.check_item_fn Resolver.initTable ⟨"f", "i32", [.ret (.num 1)]⟩
      = .ok () Resolver.initTable
    ∧ TypeCk.check_item_fn Resolver.initTable ⟨"g", "()", [.ret (.num 1)]⟩
      = .err (.returnTypeMismatch (.primitive "()") (.primitive "i32"))
          Resolver.initTable :=
  ⟨typeck_block_type_and_return_comparison.1 Resolver.initTable,
   typeck_block_type_and_return_comparison.2.1 Resolver.initTable
     [Stmt.ret (.num 1)] (.primitive "i32") Resolver.initTable
     (by simp) rfl,
   (typeck_block_type_and_return_comparison.2.2 Resolver.initTable
     ⟨"f", "i32", [.ret (.num 1)]⟩ (.primitive "i32") (.primitive "i32")
     Resolver.initTable rfl rfl).1 rfl,
   (typeck_block_type_and_return_comparison.2.2 Resolver.initTable
     ⟨"g", "()", [.ret (.num 1)]⟩ (.primitive "()") (.primitive "i32")
     Resolver.initTable rfl rfl).2 (by decide)⟩

/-! ## C10 — locals inserted by the type checker are never removed -/

/-- Inserting a binding never makes another binding unfindable. -/
theorem SymbolTable.find_insert_isSome {T : Type} (t : SymbolTable T)
    (k n : String) (v : T) (h : (t.find n).isSome) :
    ((t.insert k v).find n).isSome := by
  by_cases hk : k = n
  · subst hk
    rw [SymbolTable.find_insert]
    rfl
  · cases t with
    | mk prev syms =>
      cases prev <;>
        simp only [SymbolTable.insert, SymbolTable.previous, SymbolTable.find,
          SymbolTable.lookupList, if_neg hk] <;>
        exact h

/-- `typeck_stmt` only ever inserts into the table: its output table is
the input table, possibly extended by one binding. -/
theorem typeck_stmt_table_cases (table : Table) (s : Stmt) :
    (∀ a t', TypeCk.typeck_stmt table s = .ok a t' →
      t' = table ∨ ∃ k v, t' = table.insert k v)
    ∧ (∀ e t', TypeCk.typeck_stmt table s = .err e t' → t' = table) := by
  constructor
  · intro a t' h
    cases s with
    | locl ident tyName expr =>
      simp only [TypeCk.typeck_stmt] at h
      split at h
      · exact Tck.noConfusion h
      · split at h
        · split at h
          · injection h with h1 h2
            exact Or.inr ⟨ident, _, h2.symm⟩
          · exact Tck.noConfusion h
        · exact Tck.noConfusion h
    | expr e =>
      simp only [TypeCk.typeck_stmt] at h
      exact Tck.noConfusion h
    | ret r =>
      simp only [TypeCk.typeck_stmt] at h
      split at h
      · injection h with h1 h2
        exact Or.inl h2.symm
      · exact Tck.noConfusion h
  · intro e t' h
    cases s with
    | locl ident tyName expr =>
      simp only [TypeCk.typeck_stmt] at h
      split at h
      · injection h with h1 h2
        exact h2.symm
      · split at h
        · split at h
          · exact Tck.noConfusion h
          · injection h with h1 h2
            exact h2.symm
        · injection h with h1 h2
          exact h2.symm
    | expr ex =>
      simp only [TypeCk.typeck_stmt] at h
      exact Tck.noConfusion h
    | ret r =>
      simp only [TypeCk.typeck_stmt] at h
      split at h
      · exact Tck.noConfusion h
      · injection h with h1 h2
        exact h2.symm

/-- A binding findable before a statement is checked is still findable in
the table the check leaves behind. -/
theorem typeck_stmt_find_mono (table : Table) (s : Stmt) (n : String)
    (hn : (table.find n).isSome) :
    ∀ t', (TypeCk.typeck_stmt table s).table? = some t' →
      (t'.find n).isSome := by
  intro t' h
  cases hs : TypeCk.typeck_stmt table s with
  | panicked =>
    rw [hs] at h
    exact Option.noConfusion h
  | ok a t1 =>
    rw [hs] at h
    simp only [Tck.table?, Option.some.injEq] at h
    subst h
    rcases (typeck_stmt_table_cases table s).1 a _ hs with rfl | ⟨k, v, rfl⟩
    · exact hn
    · exact SymbolTable.find_insert_isSome table k n v hn
  | err e t1 =>
    rw [hs] at h
    simp only [Tck.table?, Option.some.injEq] at h
    subst h
    rw [(typeck_stmt_table_cases table s).2 e _ hs]
    exact hn

/-- A binding findable before a block is checked is still findable in the
table the block's check leaves behind. -/
theorem typeck_block_find_mono (stmts : List Stmt) :
    ∀ (table : Table) (n : String), (table.find n).isSome →
      ∀ t', (TypeCk.typeck_block table stmts).table? = some t' →
        (t'.find n).isSome := by
  induction stmts with
  | nil =>
    intro table n hn t' h
    simp only [TypeCk.typeck_block, Tck.table?, Option.some.injEq] at h
    subst h
    exact hn
  | cons s rest ih =>
    intro table n hn t' h
    cases hs : TypeCk.typeck_stmt table s with
    | panicked =>
      simp only [TypeCk.typeck_block, hs, Tck.table?] at h
      exact Option.noConfusion h
    | ok a t1 =>
      have hn1 : (t1.find n).isSome :=
        typeck_stmt_find_mono table s n hn t1 (by rw [hs]; rfl)
      cases rest with
      | nil =>
        simp only [TypeCk.typeck_block, hs] at h
        exact typeck_stmt_find_mono t1 s n hn1 t' h
      | cons r rs =>
        simp only [TypeCk.typeck_block, hs] at h
        exact ih t1 n hn1 t' h
    | err e t1 =>
      have hn1 : (t1.find n).isSome :=
        typeck_stmt_find_mono table s n hn t1 (by rw [hs]; rfl)
      cases rest with
      | nil =>
        simp only [TypeCk.typeck_block, hs] at h
        exact typeck_stmt_find_mono t1 s n hn1 t' h
      | cons r rs =>
        simp only [TypeCk.typeck_block, hs] at h
        exact ih t1 n hn1 t' h

/-- A binding findable before a function is checked is still findable
when that function's check ends. -/
theorem check_item_fn_find_mono (table : Table) (f : ItemFn) (n : String)
    (hn : (table.find n).isSome) :
    ∀ t', (TypeCk.check_item_fn table f).table? = some t' →
      (t'.find n).isSome := by
  intro t' h
  cases hr : Resolver.resolve_ty table f.ty with
  | none =>
    simp only [TypeCk.check_item_fn, hr, Tck.table?, Option.some.injEq] at h
    subst h
    exact hn
  | some expected =>
    cases hb : TypeCk.typeck_block table f.body with
    | panicked =>
      simp only [TypeCk.check_item_fn, hr, hb, Tck.table?] at h
      exact Option.noConfusion h
    | ok actual t1 =>
      have hn1 : (t1.find n).isSome :=
        typeck_block_find_mono f.body table n hn t1 (by rw [hb]; rfl)
      cases htq : tyEq expected actual with
      | true =>
        simp only [TypeCk.check_item_fn, hr, hb, htq, if_true, Tck.table?,
          Option.some.injEq] at h
        exact h ▸ hn1
      | false =>
        simp only [TypeCk.check_item_fn, hr, hb, htq, Bool.false_eq_true,
          if_false, Tck.table?, Option.some.injEq] at h
        exact h ▸ hn1
    | err e t1 =>
      simp only [TypeCk.check_item_fn, hr, hb, Tck.table?,
        Option.some.injEq] at h
      subst h
      exact typeck_block_find_mono f.body table n hn t1 (by rw [hb]; rfl)

/-- **C10.** Local symbols the type checker inserts into the resolver's
flat table while checking one function are never removed when that
function's check ends (the table's findable bindings only grow); and
consequently the program `fn f() -> i32 { let x: i32 = 1; return x; }
fn g() -> i32 { return x; }`, whose `x` is declared only inside `f`,
type-checks successfully — `g`'s use of `x` resolves to `f`'s local
instead of failing with an undefined-name error. -/
theorem typeck_locals_leak_across_functions :
    (∀ (table : Table) (f : ItemFn) (n : String) (t' : Table),
      (table.find n).isSome →
      (TypeCk.check_item_fn table f).table? = some t' →
      (t'.find n).isSome)
    ∧ (checkProgram fileLeakedLocal).result? = some (.ok ()) :=
  ⟨fun table f n t' hn h => check_item_fn_find_mono table f n hn t' h, rfl⟩

/-- Witness for C10: the pre-registered `"i32"` binding is still findable
after checking a concrete function on the primitives-only table. -/
theorem typeck_locals_leak_across_functions_witness :
    (Resolver.initTable.find "i32").isSome :=
  typeck_locals_leak_across_functions.1 Resolver.initTable
    ⟨"f", "i32", []⟩ "i32" Resolver.initTable rfl rfl

/-! ## Lowering-engine invariants (for C5 and C6) -/

/-- An instruction's destination address is among its listed addresses. -/
theorem Instr.da_mem_addrs (instr : Instr) (a : Addr)
    (h : instr.da = some a) : a ∈ instr.addrs := by
  cases instr <;> simp only [Instr.da, Instr.addrs] at h ⊢ <;>
    simp_all

/-- In a temps-bounded state, any temp index inside the destination of an
already-emitted instruction is below `next_temp`. -/
theorem TempsBound.da_tempIdx_lt {s : LoweringEngine} (hb : TempsBound s)
    {k : Index} {instr : Instr} {a : Addr} {t : Index}
    (hget : s.instrs.get? k = some instr) (hda : instr.da = some a)
    (ht : a.tempIdx = some t) : t < s.next_temp := by
  refine hb instr (List.get?_mem hget) t ?_
  unfold Instr.usesTemp
  rw [List.mem_filterMap]
  exact ⟨a, Instr.da_mem_addrs instr a hda, ht⟩

mutual
/-- Invariants of `process_expr`: the name map is never touched,
`next_temp` never decreases, instructions are append-only, the returned
index is the last instruction's, and temp-boundedness is preserved. -/
theorem process_expr_inv (e : Expr) : ∀ (s : LoweringEngine) (i : Index)
    (s' : LoweringEngine), LoweringEngine.process_expr s e = some (i, s') →
    s'.name_map = s.name_map ∧ s.next_temp ≤ s'.next_temp
    ∧ (∃ new, s'.instrs = s.instrs ++ new) ∧ i + 1 = s'.instrs.length
    ∧ (TempsBound s → TempsBound s') := by
  cases e with
  | binary lhs op rhs =>
    intro s i s' h
    simp only [LoweringEngine.process_expr, Option.bind_eq_bind,
      Option.bind_eq_some] at h
    obtain ⟨⟨li, s1⟩, h1, h⟩ := h
    obtain ⟨⟨ri, s2⟩, h2, h⟩ := h
    obtain ⟨e1, hT1, ⟨n1, happ1⟩, hi1, hb1⟩ := process_expr_inv lhs s li s1 h1
    obtain ⟨e2, hT2, ⟨n2, happ2⟩, hi2, hb2⟩ := process_expr_inv rhs s1 ri s2 h2
    simp only [Option.bind_eq_some, Option.some.injEq] at h
    obtain ⟨la, hla, ra, hra, h⟩ := h
    obtain ⟨instrL, hgetL, hdaL⟩ := hla
    obtain ⟨instrR, hgetR, hdaR⟩ := hra
    cases h
    refine ⟨by simp [LoweringEngine.temp, e1, e2], ?_, ?_, ?_, ?_⟩
    · exact le_trans hT1 (le_trans hT2 (Nat.le_succ _))
    · exact ⟨n1 ++ n2 ++ [Instr.binary (BinInstr.new (Addr.temp s2.next_temp)
        la (LoweringEngine.binOp op) ra)],
        by simp [LoweringEngine.temp, happ1, happ2]⟩
    · simp [LoweringEngine.temp]
    · intro hb
      have hbs2 : TempsBound s2 := hb2 (hb1 hb)
      intro instr hmem t ht
      simp only [LoweringEngine.temp, List.mem_append,
        List.mem_singleton] at hmem
      rcases hmem with hmem | rfl
      · exact Nat.lt_succ_of_lt (hbs2 instr hmem t ht)
      · unfold Instr.usesTemp at ht
        rw [List.mem_filterMap] at ht
        obtain ⟨a, ha, hti⟩ := ht
        simp only [Instr.addrs, BinInstr.new, List.mem_cons,
          List.mem_singleton, List.not_mem_nil, or_false] at ha
        rcases ha with rfl | rfl | rfl
        · simp only [Addr.tempIdx, Option.some.injEq] at hti
          subst hti
          exact Nat.lt_succ_self _
        · exact Nat.lt_succ_of_lt
            (TempsBound.da_tempIdx_lt hbs2 hgetL hdaL hti)
        · exact Nat.lt_succ_of_lt
            (TempsBound.da_tempIdx_lt hbs2 hgetR hdaR hti)
  | call ident args =>
    intro s i s' h
    simp only [LoweringEngine.process_expr, Option.bind_eq_bind,
      Option.bind_eq_some] at h
    obtain ⟨s1, h1, h⟩ := h
    obtain ⟨e1, hT1, ⟨n1, happ1⟩, hb1⟩ := process_args_inv args s s1 h1
    simp only [Option.bind_eq_some, Option.some.injEq] at h
    obtain ⟨fl, hfl, h⟩ := h
    cases h
    refine ⟨by simp [LoweringEngine.temp, e1], ?_, ?_, ?_, ?_⟩
    · exact le_trans hT1 (Nat.le_succ _)
    · exact ⟨n1 ++ [Instr.call (CallInstr.new (Addr.temp s1.next_temp) ⟨fl⟩
        args.length)], by simp [LoweringEngine.temp, happ1]⟩
    · simp [LoweringEngine.temp]
    · intro hb
      have hbs1 : TempsBound s1 := hb1 hb
      intro instr hmem t ht
      simp only [LoweringEngine.temp, List.mem_append,
        List.mem_singleton] at hmem
      rcases hmem with hmem | rfl
      · exact Nat.lt_succ_of_lt (hbs1 instr hmem t ht)
      · unfold Instr.usesTemp at ht
        rw [List.mem_filterMap] at ht
        obtain ⟨a, ha, hti⟩ := ht
        simp only [Instr.addrs, CallInstr.new, List.mem_singleton] at ha
        subst ha
        simp only [Addr.tempIdx, Option.some.injEq] at hti
        subst hti
        exact Nat.lt_succ_self _
  | ident r =>
    intro s i s' h
    simp only [LoweringEngine.process_expr, Option.bind_eq_bind,
      Option.bind_eq_some, Option.some.injEq] at h
    obtain ⟨idx, hidx, h⟩ := h
    cases h
    refine ⟨by simp [LoweringEngine.temp], ?_, ?_, ?_, ?_⟩
    · exact Nat.le_succ _
    · exact ⟨[Instr.copy (CopyInstr.new (Addr.temp s.next_temp)
        (Addr.name idx))], by simp [LoweringEngine.temp]⟩
    · simp [LoweringEngine.temp]
    · intro hb
      intro instr hmem t ht
      simp only [LoweringEngine.temp, List.mem_append,
        List.mem_singleton] at hmem
      rcases hmem with hmem | rfl
      · exact Nat.lt_succ_of_lt (hb instr hmem t ht)
      · unfold Instr.usesTemp at ht
        rw [List.mem_filterMap] at ht
        obtain ⟨a, ha, hti⟩ := ht
        simp only [Instr.addrs, CopyInstr.new, List.mem_cons,
          List.mem_singleton, List.not_mem_nil, or_false] at ha
        rcases ha with rfl | rfl
        · simp only [Addr.tempIdx, Option.some.injEq] at hti
          subst hti
          exact Nat.lt_succ_self _
        · exact Option.noConfusion ((Addr.tempIdx.eq_def _) ▸ hti)
  | num v =>
    intro s i s' h
    simp only [LoweringEngine.process_expr, Option.some.injEq] at h
    cases h
    refine ⟨by simp [LoweringEngine.temp], ?_, ?_, ?_, ?_⟩
    · exact Nat.le_succ _
    · exact ⟨[Instr.copy (CopyInstr.mk none (Addr.temp s.next_temp)
        (Addr.const (s.pool.integers.insert v).1))],
        by simp [LoweringEngine.temp]⟩
    · simp [LoweringEngine.temp]
    · intro hb
      intro instr hmem t ht
      simp only [LoweringEngine.temp, List.mem_append,
        List.mem_singleton] at hmem
      rcases hmem with hmem | rfl
      · exact Nat.lt_succ_of_lt (hb instr hmem t ht)
      · unfold Instr.usesTemp at ht
        rw [List.mem_filterMap] at ht
        obtain ⟨a, ha, hti⟩ := ht
        simp only [Instr.addrs, List.mem_cons, List.mem_singleton,
          List.not_mem_nil, or_false] at ha
        rcases ha with rfl | rfl
        · simp only [Addr.tempIdx, Option.some.injEq] at hti
          subst hti
          exact Nat.lt_succ_self _
        · exact Option.noConfusion ((Addr.tempIdx.eq_def _) ▸ hti)

/-- Invariants of `process_args`, matching `process_expr_inv`. -/
theorem process_args_inv (l : ArgList) : ∀ (s : LoweringEngine)
    (s' : LoweringEngine), LoweringEngine.process_args s l = some s' →
    s'.name_map = s.name_map ∧ s.next_temp ≤ s'.next_temp
    ∧ (∃ new, s'.instrs = s.instrs ++ new)
    ∧ (TempsBound s → TempsBound s') := by
  cases l with
  | nil =>
    intro s s' h
    simp only [LoweringEngine.process_args, Option.some.injEq] at h
    cases h
    exact ⟨rfl, Nat.le_refl _, ⟨[], by simp⟩, fun hb => hb⟩
  | cons a rest =>
    intro s s' h
    simp only [LoweringEngine.process_args, Option.bind_eq_bind,
      Option.bind_eq_some] at h
    obtain ⟨⟨i, s1⟩, h1, h⟩ := h
    obtain ⟨e1, hT1, ⟨n1, happ1⟩, hi1, hb1⟩ := process_expr_inv a s i s1 h1
    obtain ⟨ad, had, h⟩ := h
    obtain ⟨instrA, hgetA, hdaA⟩ := had
    obtain ⟨e2, hT2, ⟨n2, happ2⟩, hb2⟩ := process_args_inv rest _ s' h
    have hbmid : TempsBound s1 →
        TempsBound { s1 with
          instrs := s1.instrs ++ [Instr.param { label := none, ad := ad }] } := by
      intro hbs1
      intro instr hmem t ht
      simp only [List.mem_append, List.mem_singleton] at hmem
      rcases hmem with hmem | rfl
      · exact hbs1 instr hmem t ht
      · unfold Instr.usesTemp at ht
        rw [List.mem_filterMap] at ht
        obtain ⟨b, hbm, hti⟩ := ht
        simp only [Instr.addrs, List.mem_singleton] at hbm
        subst hbm
        exact TempsBound.da_tempIdx_lt hbs1 hgetA hdaA hti
    refine ⟨by simp_all, le_trans hT1 hT2, ?_, ?_⟩
    · refine ⟨n1 ++ [Instr.param { label := none, ad := ad }] ++ n2, ?_⟩
      rw [happ2]
      simp [happ1]
    · intro hb
      exact hb2 (hbmid (hb1 hb))
end

/-! ## C6 — binary lowering: order, operands, fresh destination -/

/-- **C6.** Lowering a binary expression from a temps-bounded state lowers
the left operand fully (emitting `L`), then the right operand (emitting
`R`, strictly after all of `L`), then emits exactly one `Binary`
instruction whose source operands are the destination addresses of the
two sub-results (the left sub-result's instruction being untouched by the
right lowering) and whose destination is the fresh temporary
`s2.next_temp`, used by no earlier instruction of the run. -/
theorem binary_lowering_order_and_freshness (s : LoweringEngine)
    (lhs : Expr) (opk : OpKind) (rhs : Expr) (i : Index)
    (s' : LoweringEngine) (hb : TempsBound s)
    (h : LoweringEngine.process_expr s (.binary lhs opk rhs) = some (i, s')) :
    ∃ li s1 ri s2 la ra,
      LoweringEngine.process_expr s lhs = some (li, s1)
      ∧ LoweringEngine.process_expr s1 rhs = some (ri, s2)
      ∧ (∃ L, s1.instrs = s.instrs ++ L)
      ∧ (∃ R, s2.instrs = s1.instrs ++ R)
      ∧ (s2.instrs.get? li).bind Instr.da = some la
      ∧ (s2.instrs.get? ri).bind Instr.da = some ra
      ∧ s2.instrs.get? li = s1.instrs.get? li
      ∧ i = s2.instrs.length
      ∧ s'.instrs = s2.instrs
          ++ [Instr.binary (BinInstr.new (Addr.temp s2.next_temp) la
               (LoweringEngine.binOp opk) ra)]
      ∧ (∀ instr ∈ s2.instrs, ¬ instr.usesTemp s2.next_temp) := by
  simp only [LoweringEngine.process_expr, Option.bind_eq_bind,
    Option.bind_eq_some] at h
  obtain ⟨⟨li, s1⟩, h1, h⟩ := h
  obtain ⟨⟨ri, s2⟩, h2, h⟩ := h
  simp only [Option.bind_eq_some, Option.some.injEq] at h
  obtain ⟨la, hla, ra, hra, h⟩ := h
  obtain ⟨instrL, hgetL, hdaL⟩ := hla
  obtain ⟨instrR, hgetR, hdaR⟩ := hra
  obtain ⟨e1, hT1, ⟨n1, happ1⟩, hi1, hb1⟩ := process_expr_inv lhs s li s1 h1
  obtain ⟨e2, hT2, ⟨n2, happ2⟩, hi2, hb2⟩ := process_expr_inv rhs s1 ri s2 h2
  have hbs2 : TempsBound s2 := hb2 (hb1 hb)
  cases h
  refine ⟨li, s1, ri, s2, la, ra, h1, h2, ⟨n1, happ1⟩, ⟨n2, happ2⟩,
    Option.bind_eq_some.mpr ⟨instrL, hgetL, hdaL⟩,
    Option.bind_eq_some.mpr ⟨instrR, hgetR, hdaR⟩, ?_, rfl, rfl, ?_⟩
  · have hlt : li < s1.instrs.length := hi1 ▸ Nat.lt_succ_self li
    rw [happ2]
    exact List.get?_append hlt
  · intro instr hmem huse
    exact absurd (hbs2 instr hmem _ huse) (lt_irrefl _)

/-- Witness for C6: lowering `1 + 2` from a fresh engine. -/
theorem binary_lowering_order_and_freshness_witness :
    ∃ i s', LoweringEngine.process_expr LoweringEngine.new
        (.binary (.num 1) .add (.num 2)) = some (i, s')
      ∧ ∃ li s1 ri s2 la ra,
          LoweringEngine.process_expr LoweringEngine.new (.num 1)
            = some (li, s1)
          ∧ LoweringEngine.process_expr s1 (.num 2) = some (ri, s2)
          ∧ (∃ L, s1.instrs = LoweringEngine.new.instrs ++ L)
          ∧ (∃ R, s2.instrs = s1.instrs ++ R)
          ∧ (s2.instrs.get? li).bind Instr.da = some la
          ∧ (s2.instrs.get? ri).bind Instr.da = some ra
          ∧ s2.instrs.get? li = s1.instrs.get? li
          ∧ i = s2.instrs.length
          ∧ s'.instrs = s2.instrs
              ++ [Instr.binary (BinInstr.new (Addr.temp s2.next_temp) la
                   (LoweringEngine.binOp .add) ra)]
          ∧ (∀ instr ∈ s2.instrs, ¬ instr.usesTemp s2.next_temp) := by
  refine ⟨2, _, rfl, ?_⟩
  exact binary_lowering_order_and_freshness LoweringEngine.new
    (.num 1) .add (.num 2) 2 _
    (fun instr hmem => absurd hmem (List.not_mem_nil instr)) rfl

/-! ## C5 — let bindings are recorded after the right-hand side -/

/-- **C5.** Lowering a `let` statement first lowers the right-hand
expression (which never touches the name map), and only then records
`identifier -> fresh Name index` in the name scope; consequently, for
`let x: T = x;` with an existing binding `x -> oldIdx`, the emitted copy
reads `Name(oldIdx)` — the outer binding — while the binding being
created receives the distinct fresh index `next`, which `find` returns
only after the statement. -/
theorem let_binding_records_name_after_rhs :
    (∀ (s : LoweringEngine) (x ty : String) (expr : Expr)
        (s' : LoweringEngine),
      LoweringEngine.visit_stmt s (.locl x ty expr) = some s' →
      ∃ i s1 ad, LoweringEngine.process_expr s expr = some (i, s1)
        ∧ s1.name_map = s.name_map
        ∧ (s1.instrs.get? i).bind Instr.da = some ad
        ∧ s'.name_map = (s1.name_map.insert x).2
        ∧ s'.instrs = s1.instrs
            ++ [Instr.copy (CopyInstr.new
                (Addr.name (s1.name_map.insert x).1) ad)])
    ∧ (∀ (s : LoweringEngine) (x ty : String) (oldIdx : Index),
      s.name_map.find x = some oldIdx →
      oldIdx < s.name_map.next →
      ∃ s', LoweringEngine.visit_stmt s (.locl x ty (.ident x)) = some s'
        ∧ s'.instrs = s.instrs
            ++ [Instr.copy (CopyInstr.new (Addr.temp s.next_temp)
                  (Addr.name oldIdx)),
                Instr.copy (CopyInstr.new (Addr.name s.name_map.next)
                  (Addr.temp s.next_temp))]
        ∧ oldIdx ≠ s.name_map.next
        ∧ s'.name_map.find x = some s.name_map.next) := by
  constructor
  · intro s x ty expr s' h
    simp only [LoweringEngine.visit_stmt, Option.bind_eq_bind,
      Option.bind_eq_some] at h
    obtain ⟨⟨i, s1⟩, h1, h⟩ := h
    obtain ⟨ad, ⟨instrA, hgetA, hdaA⟩, h⟩ := h
    simp only [Option.some.injEq] at h
    cases h
    exact ⟨i, s1, ad, h1, (process_expr_inv expr s i s1 h1).1,
      Option.bind_eq_some.mpr ⟨instrA, hgetA, hdaA⟩, rfl, rfl⟩
  · intro s x ty oldIdx hfind hlt
    have hpe : LoweringEngine.process_expr s (.ident x)
        = some (s.instrs.length, { s with
            instrs := s.instrs ++ [Instr.copy (CopyInstr.new
              (Addr.temp s.next_temp) (Addr.name oldIdx))],
            next_temp := s.next_temp + 1 }) := by
      simp [LoweringEngine.process_expr, hfind, LoweringEngine.temp]
    refine ⟨⟨s.instrs
        ++ [Instr.copy (CopyInstr.new (Addr.temp s.next_temp)
              (Addr.name oldIdx)),
            Instr.copy (CopyInstr.new (Addr.name s.name_map.next)
              (Addr.temp s.next_temp))],
      ⟨s.name_map.table.insert x s.name_map.next, s.name_map.next + 1⟩,
      s.fn_map, s.pool, s.next_temp + 1⟩, ?_, rfl, Nat.ne_of_lt hlt, ?_⟩
    · simp only [LoweringEngine.visit_stmt, hpe, Option.bind_eq_bind,
        Option.some_bind]
      rw [List.get?_concat_length]
      simp only [Mapper.insert, List.append_assoc]
      rfl
    · show (SymbolTable.insert s.name_map.table x s.name_map.next).find x
        = some s.name_map.next
      exact SymbolTable.find_insert _ x _

/-- Witness for C5: on an engine whose name map binds only `x -> 0`, the
statement `let x: i32 = x;` lowers so that the copy reads `Name(0)` (the
pre-existing binding) and the new binding gets the distinct index `1`. -/
theorem let_binding_records_name_after_rhs_witness :
    (∃ i s1 ad,
      LoweringEngine.process_expr
        { LoweringEngine.new with name_map := (Mapper.new.insert "x").2 }
        (.ident "x") = some (i, s1)
      ∧ s1.name_map
        = ({ LoweringEngine.new with
            name_map := (Mapper.new.insert "x").2 } :
            LoweringEngine).name_map
      ∧ (s1.instrs.get? i).bind Instr.da = some ad
      ∧ True)
    ∧ ∃ s', LoweringEngine.visit_stmt
        { LoweringEngine.new with name_map := (Mapper.new.insert "x").2 }
        (.locl "x" "i32" (.ident "x")) = some s'
      ∧ s'.name_map.find "x" = some 1 := by
  constructor
  · obtain ⟨i, s1, ad, h1, he, hda, _, _⟩ :=
      let_binding_records_name_after_rhs.1
        { LoweringEngine.new with name_map := (Mapper.new.insert "x").2 }
        "x" "i32" (.ident "x") _ rfl
    exact ⟨i, s1, ad, h1, he, hda, trivial⟩
  · obtain ⟨s', hvs, _, _, hfind⟩ :=
      let_binding_records_name_after_rhs.2
        { LoweringEngine.new with name_map := (Mapper.new.insert "x").2 }
        "x" "i32" 0 rfl (by decide)
    exact ⟨s', hvs, hfind⟩

end Scooter
